import Mathlib

/-!
# Verification of `thx/core.py`

A shallow embedding of the job-dependency resolver and multi-context
execution engine in `src/thx/core.py`, together with theorems settling
the specification claims about it.

Modelling conventions:
* The data types (`Job`, `Context`, `Config`, `Step`, `Result`, `Event`,
  `Options`) live in `thx/types.py`, which is not part of the sources;
  they are modelled from the spec's data-model section (§3).
* Python's unbounded recursion in `resolve_jobs` is modelled with an
  explicit fuel argument; exhausting the fuel yields the distinguished
  error `Err.recursionLimit`, standing for non-termination /
  `RecursionError` (only reachable through cyclic `requires` chains or
  insufficient fuel, never on well-fuelled acyclic inputs).
* Exceptions (`ValueError` for an unknown job name, `ValueError` raised
  by `list.remove` when the element is absent) are modelled with
  `Except` / an `Option Err` component.
* External collaborators (`prepare_job`, step execution) are an oracle
  parameter `pj : PrepareJob`; `resolve_contexts` is a plain parameter;
  `prepare_contexts` has no observable return value, so `run_jobs`
  exposes the context list it passes to it as the first component of
  its result.
-/

set_option autoImplicit false

deriving instance DecidableEq for Except

namespace Thx

/-- Modelled from the spec: a `Job` (from `thx/types.py`, absent from the
sources) has an identity name, an ordered list of command templates
(`run`), an ordered list of required job names (`requires`), and a
run-once flag (`once`).  Python dataclass equality is structural, which
the derived `DecidableEq` mirrors. -/
structure Job where
  name : String
  run : List String
  requires : List String
  once : Bool
deriving DecidableEq

/-- Modelled from the spec: a `Context` (from `thx/types.py`) is an
immutable execution-environment descriptor. -/
structure Context where
  name : String
deriving DecidableEq

/-- Modelled from the spec: a `Config` (from `thx/types.py`) maps job
names to jobs (an insertion-ordered dict, modelled as an association
list) and carries the ordered list of default job names. -/
structure Config where
  jobs : List (String × Job)
  defaults : List String
deriving DecidableEq

/-- Modelled from the spec: a `Result` (from `thx/types.py`) carries the
finished job and context, the success flag, and the captured exit code
and output of the step. -/
structure Result where
  job : Job
  context : Context
  success : Bool
  exit_code : Int
  stdout : String
  stderr : String
deriving DecidableEq

/-- Modelled from the spec: a `Step` (from `thx/runner.py`) is one
concrete awaitable command; `cmd` is the command and `result` the
outcome awaiting it produces. -/
structure Step where
  cmd : String
  result : Result
deriving DecidableEq

/-- Modelled from the spec: an `Event` (from `thx/types.py`) is either a
`Start {command, job, context}` or a terminal `Result`. -/
inductive Event where
  | start (command : String) (job : Job) (context : Context)
  | result (res : Result)
deriving DecidableEq

/-- Modelled from the spec: `Options` (from `thx/types.py`) carries the
loaded config, the interpreter filter and the requested job names. -/
structure Options where
  config : Config
  python : Option String
  jobs : List String
deriving DecidableEq

/-- The errors `core.py` can raise: the `ValueError` for an unknown job
name in `resolve_jobs`, the fuel marker standing for unbounded recursion
on cyclic graphs, and the `ValueError` raised by `list.remove` in
`run_jobs` when a recorded job is no longer in the active list. -/
inductive Err where
  | unknownJob (name : String)
  | recursionLimit
  | removeMissing
deriving DecidableEq

/-- Oracle for the external collaborator `prepare_job(job, context,
config)` together with the outcome of awaiting each produced step. -/
def PrepareJob : Type := Job → Context → Config → List Step

/-- The body of `resolve_jobs` (`core.py` lines 17–33): iterate the
requested names accumulating `queue`; an unknown name raises; a job
with a non-empty `requires` first recursively resolves it (from a fresh
queue) and merges each dependency not already present; then the job
itself is appended unconditionally.  `fuel` decreases on every
recursive step so the definition is total; `resolve_jobs` below is the
entry point. -/
def resolveNames (cfg : Config) : Nat → List String → List Job → Except Err (List Job)
  | 0, names, queue =>
    match names with
    | [] => .ok queue
    | _ :: _ => .error Err.recursionLimit
  | fuel + 1, names, queue =>
    match names with
    | [] => .ok queue
    | n :: rest =>
      match cfg.jobs.lookup n with
      | none => .error (Err.unknownJob n)
      | some job =>
        if job.requires.isEmpty then
          resolveNames cfg fuel rest (queue ++ [job])
        else
          match resolveNames cfg fuel job.requires [] with
          | .error e => .error e
          | .ok deps =>
            resolveNames cfg fuel rest
              ((deps.foldl (fun q d => if d ∈ q then q else q ++ [d]) queue) ++ [job])

/-- `resolve_jobs(names, config)` (`core.py` lines 17–33), with the fuel
for the recursion model. -/
def resolve_jobs (fuel : Nat) (names : List String) (config : Config) : Except Err (List Job) :=
  resolveNames config fuel names []

/-- The inner step loop of `run_jobs_on_context` (`core.py` lines
39–47): for each step, yield a `Start`, await the step, yield its
`Result`; on a failed result the whole generator returns.  The boolean
records whether the early `return` fired, so the caller can stop
iterating the remaining jobs. -/
def runSteps (j : Job) (c : Context) : List Step → List Event × Bool
  | [] => ([], false)
  | s :: rest =>
    if s.result.success then
      (Event.start s.cmd j c :: Event.result s.result :: (runSteps j c rest).1,
       (runSteps j c rest).2)
    else
      ([Event.start s.cmd j c, Event.result s.result], true)

/-- `run_jobs_on_context(jobs, context, config)` (`core.py` lines
36–47): one pass of the per-context executor over the job list; a
failed step's `return` ends the whole pass.  The `timed` scope is an
external measurement collaborator with no observable event. -/
def run_jobs_on_context (pj : PrepareJob) : List Job → Context → Config → List Event
  | [], _, _ => []
  | j :: rest, c, cfg =>
    if (runSteps j c (pj j c cfg)).2 then
      (runSteps j c (pj j c cfg)).1
    else
      (runSteps j c (pj j c cfg)).1 ++ run_jobs_on_context pj rest c cfg

/-- The recording predicate of `run_jobs` (`core.py` lines 61–62):
`isinstance(event, Start) and event.job.once` — the job of a `Start`
event whose `once` flag is set. -/
def startOnce : Event → Option Job
  | .start _ j _ => if j.once then some j else none
  | .result _ => none

/-- The `finished_jobs` list accumulated while consuming one context
pass of `run_jobs` (`core.py` lines 60–63): every `once` job of every
`Start` event, in event order, with multiplicity. -/
def finished_pass (pj : PrepareJob) (active : List Job) (c : Context) (cfg : Config) :
    List Job :=
  (run_jobs_on_context pj active c cfg).filterMap startOnce

/-- Python's `list.remove`: delete the first occurrence by equality, or
raise `ValueError` when the element is absent. -/
def removeFirst (l : List Job) (j : Job) : Option (List Job) :=
  if j ∈ l then some (l.erase j) else none

/-- The pruning loop of `run_jobs` (`core.py` lines 66–69):
`for job in finished_jobs: active_jobs.remove(job)`, propagating the
`ValueError` of a failed removal. -/
def removeAll : List Job → List Job → Option (List Job)
  | active, [] => some active
  | active, j :: rest =>
    match removeFirst active j with
    | none => none
    | some active' => removeAll active' rest

/-- The per-context loop of `run_jobs` (`core.py` lines 59–69), with the
events grouped by pass: run a pass over the active jobs, record the
started `once` jobs, prune them from the active list, continue with the
next context.  A failed removal is the `ValueError` that `list.remove`
raises after the pass's events have already been yielded; it aborts the
remaining contexts. -/
def run_jobs_loop (pj : PrepareJob) (cfg : Config) :
    List Context → List Job → List (List Event) × Option Err
  | [], _ => ([], none)
  | c :: cs, active =>
    match removeAll active (finished_pass pj active c cfg) with
    | none => ([run_jobs_on_context pj active c cfg], some Err.removeMissing)
    | some active' =>
      (run_jobs_on_context pj active c cfg :: (run_jobs_loop pj cfg cs active').1,
       (run_jobs_loop pj cfg cs active').2)

/-- `run_jobs(jobs, contexts, config)` (`core.py` lines 50–70).  The
first component is the (possibly trimmed) context sequence — both the
argument of the single `prepare_contexts` call and the sequence the
loop iterates; the second is the event stream grouped by context pass,
with the `ValueError` marker of a failed `list.remove`. -/
def run_jobs (pj : PrepareJob) (jobs : List Job) (ctxs : List Context) (cfg : Config) :
    List Context × List (List Event) × Option Err :=
  let ctxs' := if jobs.all (fun j => j.once) then ctxs.take 1 else ctxs
  (ctxs', run_jobs_loop pj cfg ctxs' jobs)

/-- The events of a whole `run_jobs` invocation, in emission order. -/
def run_jobs_events (pj : PrepareJob) (jobs : List Job) (ctxs : List Context)
    (cfg : Config) : List Event :=
  (run_jobs pj jobs ctxs cfg).2.1.flatten

/-- The `results` accumulation of `run` (`core.py` lines 96–105): every
`Result` event, in order. -/
def resultsOf (events : List Event) : List Result :=
  events.filterMap (fun e => match e with | .result r => some r | .start _ _ _ => none)

/-- The part of `run` after the default-name fallback (`core.py` lines
88–107): resolve the (already defaulted) names, then drive `run_jobs`,
printing every event and accumulating the `Result` events.  The first
component is the `Options` value as left behind by `run` (observable to
the caller, see the in-place `extend`); the second is the list of
events surfaced before returning or raising; the third is the returned
result list or the propagated exception. -/
def runResolved (pj : PrepareJob) (ctxs : List Context) (fuel : Nat) (o : Options) :
    Options × List Event × Except Err (List Result) :=
  match resolve_jobs fuel o.jobs o.config with
  | .error e => (o, [], .error e)
  | .ok jobs =>
    match (run_jobs pj jobs ctxs o.config).2.2 with
    | some e => (o, run_jobs_events pj jobs ctxs o.config, .error e)
    | none =>
      (o, run_jobs_events pj jobs ctxs o.config,
       .ok (resultsOf (run_jobs_events pj jobs ctxs o.config)))

/-- `run(options)` (`core.py` lines 73–107).  `ctxs` stands for the
result of the external `resolve_contexts` collaborator.  When no job
names were requested, `job_names.extend(config.default)` mutates
`options.jobs` in place (`job_names` aliases it), which the returned
`Options` value records; with no defaults either, `run` warns and
returns `[]` without executing anything. -/
def run (pj : PrepareJob) (ctxs : List Context) (fuel : Nat) (options : Options) :
    Options × List Event × Except Err (List Result) :=
  if options.jobs.isEmpty then
    if options.config.defaults.isEmpty then
      (options, [], .ok [])
    else
      runResolved pj ctxs fuel { options with jobs := options.jobs ++ options.config.defaults }
  else
    runResolved pj ctxs fuel options

/-- No failed `Result` occurs among the events. -/
def failFree (evs : List Event) : Prop :=
  ∀ r : Result, Event.result r ∈ evs → r.success = true

/-- The event is a `Start` whose job is `j`. -/
def isStartOf (j : Job) : Event → Bool
  | .start _ j' _ => j' = j
  | .result _ => false

/-! ### Concrete fixtures

Small concrete configs, jobs, contexts and step oracles used to
evaluate the code on the explicit inputs the claims mention. -/

/-- A dependency-free job, required by `xJob` and `yJob`. -/
def sharedJob : Job := ⟨"shared", ["echo shared"], [], false⟩

/-- A job requiring `sharedJob`. -/
def xJob : Job := ⟨"x", ["echo x"], ["shared"], false⟩

/-- A second job requiring `sharedJob`. -/
def yJob : Job := ⟨"y", ["echo y"], ["shared"], false⟩

/-- Config with `shared`, `x`, `y` and no defaults. -/
def sampleConfig : Config := ⟨[("shared", sharedJob), ("x", xJob), ("y", yJob)], []⟩

/-- The same job table with `["y"]` as the declared default. -/
def defConfig : Config := ⟨[("shared", sharedJob), ("x", xJob), ("y", yJob)], ["y"]⟩

/-- A run-once job with two command templates, hence two steps. -/
def onceJob : Job := ⟨"build", ["step one", "step two"], [], true⟩

/-- A run-once job with a single command template, hence one step. -/
def onceSolo : Job := ⟨"setup", ["pip install"], [], true⟩

/-- An ordinary single-step job. -/
def plainJob : Job := ⟨"lint", ["flake8"], [], false⟩

/-- A run-once job with a single command. -/
def onceFail : Job := ⟨"deploy", ["publish"], [], true⟩

/-- An ordinary single-step job, used with the failing oracle. -/
def failJob : Job := ⟨"test", ["pytest"], [], false⟩

def ctxA : Context := ⟨"py38"⟩
def ctxB : Context := ⟨"py39"⟩
def ctxC : Context := ⟨"py310"⟩

/-- A config with no jobs and no defaults, for runs whose job list is
supplied directly. -/
def bareConfig : Config := ⟨[], []⟩

/-- Step oracle: one step per command template, each succeeding. -/
def succeedAll : PrepareJob :=
  fun j c _ => j.run.map (fun cmd => ⟨cmd, ⟨j, c, true, 0, "", ""⟩⟩)

/-- Step oracle: one step per command template, each failing with exit
code 1. -/
def failAll : PrepareJob :=
  fun j c _ => j.run.map (fun cmd => ⟨cmd, ⟨j, c, false, 1, "", "boom"⟩⟩)

/-- Options requesting the name `"ghost"`, absent from `sampleConfig`. -/
def options5 : Options := ⟨sampleConfig, none, ["ghost"]⟩

/-- Options requesting no names, against a config with default `["y"]`. -/
def options9 : Options := ⟨defConfig, none, []⟩

/-! ### Helper lemmas -/

theorem failFree_nil : failFree [] := by intro r hr; cases hr

theorem failFree_cons_start {evs : List Event} {cmd : String} {j : Job} {c : Context}
    (h : failFree evs) : failFree (Event.start cmd j c :: evs) := by
  intro r hr
  rcases List.mem_cons.mp hr with hr | hr
  · cases hr
  · exact h r hr

theorem failFree_cons_result {evs : List Event} {r0 : Result} (h0 : r0.success = true)
    (h : failFree evs) : failFree (Event.result r0 :: evs) := by
  intro r hr
  rcases List.mem_cons.mp hr with hr | hr
  · cases hr; exact h0
  · exact h r hr

theorem failFree_append {l l' : List Event} (h : failFree l) (h' : failFree l') :
    failFree (l ++ l') := by
  intro r hr
  rcases List.mem_append.mp hr with hr | hr
  · exact h r hr
  · exact h' r hr

/-- `runSteps` either finishes without the early return and its events
are fail-free, or the early return fired and the event list is a
fail-free prefix closed by one final `Result`. -/
theorem runSteps_shape (j : Job) (c : Context) (steps : List Step) :
    ((runSteps j c steps).2 = false → failFree (runSteps j c steps).1) ∧
    ((runSteps j c steps).2 = true →
      ∃ l r, (runSteps j c steps).1 = l ++ [Event.result r] ∧ failFree l) := by
  induction steps with
  | nil => exact ⟨fun _ => failFree_nil, fun h => by simp [runSteps] at h⟩
  | cons s rest ih =>
    by_cases hs : s.result.success
    · have hrw1 : (runSteps j c (s :: rest)).1
          = Event.start s.cmd j c :: Event.result s.result :: (runSteps j c rest).1 := by
        simp [runSteps, hs]
      have hrw2 : (runSteps j c (s :: rest)).2 = (runSteps j c rest).2 := by
        simp [runSteps, hs]
      constructor
      · intro hab
        rw [hrw1]
        exact failFree_cons_start (failFree_cons_result hs (ih.1 (hrw2 ▸ hab)))
      · intro hab
        rcases ih.2 (hrw2 ▸ hab) with ⟨l, r, hl, hff⟩
        refine ⟨Event.start s.cmd j c :: Event.result s.result :: l, r, ?_, ?_⟩
        · rw [hrw1, hl]; rfl
        · exact failFree_cons_start (failFree_cons_result hs hff)
    · constructor
      · intro hab; simp [runSteps, hs] at hab
      · intro _
        exact ⟨[Event.start s.cmd j c], s.result, by simp [runSteps, hs],
          failFree_cons_start failFree_nil⟩

/-- A pass of the per-context executor is either entirely fail-free or
a fail-free prefix closed by one final `Result`. -/
theorem rjoc_shape (pj : PrepareJob) (jobs : List Job) (c : Context) (cfg : Config) :
    failFree (run_jobs_on_context pj jobs c cfg) ∨
    ∃ l r, run_jobs_on_context pj jobs c cfg = l ++ [Event.result r] ∧ failFree l := by
  induction jobs with
  | nil => exact Or.inl failFree_nil
  | cons j rest ih =>
    cases hab : (runSteps j c (pj j c cfg)).2 with
    | true =>
      have hrw : run_jobs_on_context pj (j :: rest) c cfg = (runSteps j c (pj j c cfg)).1 := by
        simp [run_jobs_on_context, hab]
      rcases (runSteps_shape j c (pj j c cfg)).2 hab with ⟨l, r, hl, hff⟩
      exact Or.inr ⟨l, r, hrw ▸ hl, hff⟩
    | false =>
      have hrw : run_jobs_on_context pj (j :: rest) c cfg
          = (runSteps j c (pj j c cfg)).1 ++ run_jobs_on_context pj rest c cfg := by
        simp [run_jobs_on_context, hab]
      have hff := (runSteps_shape j c (pj j c cfg)).1 hab
      rcases ih with hff' | ⟨l', r', hl', hff'⟩
      · exact Or.inl (hrw ▸ failFree_append hff hff')
      · refine Or.inr ⟨(runSteps j c (pj j c cfg)).1 ++ l', r', ?_, failFree_append hff hff'⟩
        rw [hrw, hl', List.append_assoc]

/-- Every `Start` event of `runSteps j c steps` carries the job `j`. -/
theorem runSteps_start_job {j j0 : Job} {c c0 : Context} {cmd : String} {steps : List Step}
    (h : Event.start cmd j0 c0 ∈ (runSteps j c steps).1) : j0 = j := by
  induction steps with
  | nil => simp [runSteps] at h
  | cons s rest ih =>
    by_cases hs : s.result.success
    · rw [show (runSteps j c (s :: rest)).1
          = Event.start s.cmd j c :: Event.result s.result :: (runSteps j c rest).1 from by
        simp [runSteps, hs]] at h
      rcases List.mem_cons.mp h with h | h
      · injection h with h1 h2 h3
      · rcases List.mem_cons.mp h with h | h
        · cases h
        · exact ih h
    · rw [show (runSteps j c (s :: rest)).1
          = [Event.start s.cmd j c, Event.result s.result] from by simp [runSteps, hs]] at h
      rcases List.mem_cons.mp h with h | h
      · injection h with h1 h2 h3
      · rcases List.mem_cons.mp h with h | h
        · cases h
        · cases h

/-- The job of any `Start` event of a pass belongs to the pass's job
list. -/
theorem rjoc_start_mem {pj : PrepareJob} {jobs : List Job} {c c0 : Context} {cfg : Config}
    {cmd : String} {j0 : Job}
    (h : Event.start cmd j0 c0 ∈ run_jobs_on_context pj jobs c cfg) : j0 ∈ jobs := by
  induction jobs with
  | nil => simp [run_jobs_on_context] at h
  | cons j rest ih =>
    cases hab : (runSteps j c (pj j c cfg)).2 with
    | true =>
      rw [show run_jobs_on_context pj (j :: rest) c cfg = (runSteps j c (pj j c cfg)).1 from by
        simp [run_jobs_on_context, hab]] at h
      exact (runSteps_start_job h) ▸ List.mem_cons_self j rest
    | false =>
      rw [show run_jobs_on_context pj (j :: rest) c cfg
          = (runSteps j c (pj j c cfg)).1 ++ run_jobs_on_context pj rest c cfg from by
        simp [run_jobs_on_context, hab]] at h
      rcases List.mem_append.mp h with h | h
      · exact (runSteps_start_job h) ▸ List.mem_cons_self j rest
      · exact List.mem_cons_of_mem j (ih h)

theorem any_start_exists {evs : List Event} {j : Job}
    (h : evs.any (isStartOf j) = true) : ∃ cmd c0, Event.start cmd j c0 ∈ evs := by
  rcases List.any_eq_true.mp h with ⟨e, he, hp⟩
  cases e with
  | start cmd j' c0 =>
    have : j' = j := by simpa [isStartOf] using hp
    exact ⟨cmd, c0, this ▸ he⟩
  | result r => simp [isStartOf] at hp

theorem no_start_of_not_mem {pj : PrepareJob} {active : List Job} {c : Context}
    {cfg : Config} {j : Job} (h : j ∉ active) :
    (run_jobs_on_context pj active c cfg).any (isStartOf j) = false := by
  rw [← Bool.not_eq_true, List.any_eq_true]
  rintro ⟨e, he, hp⟩
  cases e with
  | start cmd j' c0 =>
    have hj : j' = j := by simpa [isStartOf] using hp
    exact h (hj ▸ rjoc_start_mem he)
  | result r => simp [isStartOf] at hp

/-- A `once` job that fires a `Start` event during a pass is recorded
in that pass's `finished_jobs` list. -/
theorem start_mem_finished {pj : PrepareJob} {active : List Job} {c c0 : Context}
    {cfg : Config} {j : Job} {cmd : String} (h1 : j.once = true)
    (h2 : Event.start cmd j c0 ∈ run_jobs_on_context pj active c cfg) :
    j ∈ finished_pass pj active c cfg :=
  List.mem_filterMap.mpr ⟨Event.start cmd j c0, h2, by simp [startOnce, h1]⟩

/-- Successful removal only ever lowers occurrence counts. -/
theorem removeAll_count_le {fin : List Job} :
    ∀ {active active' : List Job}, removeAll active fin = some active' →
      ∀ a : Job, List.count a active' ≤ List.count a active := by
  induction fin with
  | nil => intro active active' h a; cases h; exact Nat.le_refl _
  | cons f rest ih =>
    intro active active' h a
    rcases hrf : removeFirst active f with _ | a1
    · rw [removeAll, hrf] at h; cases h
    · rw [removeAll, hrf] at h
      have ha1 : a1 = active.erase f := by
        unfold removeFirst at hrf
        by_cases hf : f ∈ active
        · rw [if_pos hf] at hrf; injection hrf with h'; exact h'.symm
        · rw [if_neg hf] at hrf; cases hrf
      calc List.count a active' ≤ List.count a a1 := ih h a
        _ ≤ List.count a active := by
          rw [ha1, List.count_erase]
          exact Nat.sub_le _ _

/-- If a job occurring at most once in the active list is among the
removed jobs and the removal loop succeeds, the job is gone from the
resulting list. -/
theorem removeAll_count_zero {fin : List Job} :
    ∀ {active active' : List Job} {j : Job}, removeAll active fin = some active' →
      j ∈ fin → List.count j active ≤ 1 → List.count j active' = 0 := by
  induction fin with
  | nil => intro _ _ _ _ hj; cases hj
  | cons f rest ih =>
    intro active active' j h hj hcnt
    rcases hrf : removeFirst active f with _ | a1
    · rw [removeAll, hrf] at h; cases h
    · rw [removeAll, hrf] at h
      have hfa : f ∈ active := by
        unfold removeFirst at hrf
        by_cases hf : f ∈ active
        · exact hf
        · rw [if_neg hf] at hrf; cases hrf
      have ha1 : a1 = active.erase f := by
        unfold removeFirst at hrf
        rw [if_pos hfa] at hrf; injection hrf with h'; exact h'.symm
      by_cases hfj : f = j
      · subst hfj
        have hpos : 0 < List.count f active := List.count_pos_iff.mpr hfa
        have hz : List.count f a1 = 0 := by
          rw [ha1, List.count_erase_self]; omega
        have := removeAll_count_le h f
        omega
      · rcases List.mem_cons.mp hj with hj' | hj'
        · exact absurd hj'.symm hfj
        · have : List.count j a1 = List.count j active := by
            rw [ha1, List.count_erase_of_ne (fun he => hfj he.symm)]
          exact ih h hj' (this ▸ hcnt)

/-- A job absent from the active list never fires a `Start` in any
later pass. -/
theorem loop_countP_zero {pj : PrepareJob} {cfg : Config} {j : Job} :
    ∀ (cs : List Context) (active : List Job), List.count j active = 0 →
      ((run_jobs_loop pj cfg cs active).1.countP (fun evs => evs.any (isStartOf j))) = 0 := by
  intro cs
  induction cs with
  | nil => intro active _; simp [run_jobs_loop]
  | cons c cs ih =>
    intro active hcnt
    have hnm : j ∉ active := List.count_eq_zero.mp hcnt
    have hany : (run_jobs_on_context pj active c cfg).any (isStartOf j) = false :=
      no_start_of_not_mem hnm
    rcases hra : removeAll active (finished_pass pj active c cfg) with _ | active'
    · simp [run_jobs_loop, hra, List.countP_cons, hany]
    · have hz : List.count j active' = 0 :=
        Nat.le_zero.mp (hcnt ▸ removeAll_count_le hra j)
      simp [run_jobs_loop, hra, List.countP_cons, hany, ih active' hz]

/-- Core of the run-once invariant: a `once` job occurring at most once
in the active list fires `Start` events in at most one pass of the
orchestrator loop. -/
theorem loop_countP_le_one {pj : PrepareJob} {cfg : Config} {j : Job} (honce : j.once = true) :
    ∀ (cs : List Context) (active : List Job), List.count j active ≤ 1 →
      ((run_jobs_loop pj cfg cs active).1.countP (fun evs => evs.any (isStartOf j))) ≤ 1 := by
  intro cs
  induction cs with
  | nil => intro active _; simp [run_jobs_loop]
  | cons c cs ih =>
    intro active hcnt
    rcases hra : removeAll active (finished_pass pj active c cfg) with _ | active'
    · have hle : ((run_jobs_loop pj cfg (c :: cs) active).1.countP
          (fun evs => evs.any (isStartOf j)))
          ≤ (run_jobs_loop pj cfg (c :: cs) active).1.length := List.countP_le_length _
      have hlen : (run_jobs_loop pj cfg (c :: cs) active).1.length = 1 := by
        simp [run_jobs_loop, hra]
      omega
    · cases hany : (run_jobs_on_context pj active c cfg).any (isStartOf j) with
      | false =>
        have hcnt' : List.count j active' ≤ 1 :=
          Nat.le_trans (removeAll_count_le hra j) hcnt
        simp [run_jobs_loop, hra, List.countP_cons, hany]
        exact ih active' hcnt'
      | true =>
        rcases any_start_exists hany with ⟨cmd, c0, hmem⟩
        have hfin : j ∈ finished_pass pj active c cfg := start_mem_finished honce hmem
        have hz : List.count j active' = 0 := removeAll_count_zero hra hfin hcnt
        simp [run_jobs_loop, hra, List.countP_cons, hany, loop_countP_zero cs active' hz]

/-- The loop produces at most one pass per context. -/
theorem loop_length_le {pj : PrepareJob} {cfg : Config} :
    ∀ (cs : List Context) (active : List Job),
      (run_jobs_loop pj cfg cs active).1.length ≤ cs.length := by
  intro cs
  induction cs with
  | nil => intro active; simp [run_jobs_loop]
  | cons c cs ih =>
    intro active
    rcases hra : removeAll active (finished_pass pj active c cfg) with _ | active'
    · simp [run_jobs_loop, hra]
    · simp [run_jobs_loop, hra]
      exact ih active'

/-- A name list containing a name missing from the config never
resolves successfully, whatever the fuel and accumulator. -/
theorem resolveNames_unknown_not_ok {cfg : Config} {name : String}
    (hname : cfg.jobs.lookup name = none) :
    ∀ (fuel : Nat) (names : List String) (queue l : List Job), name ∈ names →
      resolveNames cfg fuel names queue ≠ .ok l := by
  intro fuel
  induction fuel with
  | zero =>
    intro names queue l hmem h
    cases names with
    | nil => cases hmem
    | cons n rest => simp [resolveNames] at h
  | succ fuel ih =>
    intro names queue l hmem h
    cases names with
    | nil => cases hmem
    | cons n rest =>
      rcases hlk : cfg.jobs.lookup n with _ | job
      · simp [resolveNames, hlk] at h
      · rcases List.mem_cons.mp hmem with heq | hmem'
        · subst heq; rw [hname] at hlk; cases hlk
        · by_cases hreq : job.requires.isEmpty
          · rw [show resolveNames cfg (fuel + 1) (n :: rest) queue
                = resolveNames cfg fuel rest (queue ++ [job]) from by
              simp [resolveNames, hlk, hreq]] at h
            exact ih rest (queue ++ [job]) l hmem' h
          · rcases hdeps : resolveNames cfg fuel job.requires [] with e | deps
            · rw [show resolveNames cfg (fuel + 1) (n :: rest) queue = .error e from by
                simp [resolveNames, hlk, hreq, hdeps]] at h
              cases h
            · rw [show resolveNames cfg (fuel + 1) (n :: rest) queue
                  = resolveNames cfg fuel rest
                      ((deps.foldl (fun q d => if d ∈ q then q else q ++ [d]) queue) ++ [job])
                  from by simp [resolveNames, hlk, hreq, hdeps]] at h
              exact ih rest _ l hmem' h

/-- Every resolution error is either the fuel marker or an unknown-job
error naming a name that is genuinely missing from the config. -/
theorem resolveNames_error_shape {cfg : Config} :
    ∀ (fuel : Nat) (names : List String) (queue : List Job) (e : Err),
      resolveNames cfg fuel names queue = .error e →
      e = Err.recursionLimit ∨ ∃ m, e = Err.unknownJob m ∧ cfg.jobs.lookup m = none := by
  intro fuel
  induction fuel with
  | zero =>
    intro names queue e h
    cases names with
    | nil => simp [resolveNames] at h
    | cons n rest =>
      rw [show resolveNames cfg 0 (n :: rest) queue = .error Err.recursionLimit from rfl] at h
      injection h with h'
      exact Or.inl h'.symm
  | succ fuel ih =>
    intro names queue e h
    cases names with
    | nil => simp [resolveNames] at h
    | cons n rest =>
      rcases hlk : cfg.jobs.lookup n with _ | job
      · rw [show resolveNames cfg (fuel + 1) (n :: rest) queue = .error (Err.unknownJob n)
            from by simp [resolveNames, hlk]] at h
        injection h with h'
        exact Or.inr ⟨n, h'.symm, hlk⟩
      · by_cases hreq : job.requires.isEmpty
        · rw [show resolveNames cfg (fuel + 1) (n :: rest) queue
              = resolveNames cfg fuel rest (queue ++ [job]) from by
            simp [resolveNames, hlk, hreq]] at h
          exact ih rest (queue ++ [job]) e h
        · rcases hdeps : resolveNames cfg fuel job.requires [] with e' | deps
          · rw [show resolveNames cfg (fuel + 1) (n :: rest) queue = .error e' from by
              simp [resolveNames, hlk, hreq, hdeps]] at h
            injection h with h'
            exact h' ▸ ih job.requires [] e' hdeps
          · rw [show resolveNames cfg (fuel + 1) (n :: rest) queue
                = resolveNames cfg fuel rest
                    ((deps.foldl (fun q d => if d ∈ q then q else q ++ [d]) queue) ++ [job])
                from by simp [resolveNames, hlk, hreq, hdeps]] at h
            exact ih rest _ e h

/-- `runResolved` returns its `Options` argument unchanged in every
branch. -/
theorem runResolved_fst (pj : PrepareJob) (ctxs : List Context) (fuel : Nat) (o : Options) :
    (runResolved pj ctxs fuel o).1 = o := by
  rcases hres : resolve_jobs fuel o.jobs o.config with e | jobs
  · simp [runResolved, hres]
  · rcases herr : (run_jobs pj jobs ctxs o.config).2.2 with _ | e
    · simp [runResolved, hres, herr]
    · simp [runResolved, hres, herr]

/-! ### Claim theorems -/

/-- C1: evaluation of the code at the failing input.  The claim states
that the resolver output never duplicates a job and that a job which is
both a direct request and a transitive dependency appears exactly once.
The code appends a directly requested job unconditionally, so resolving
`["x", "shared"]` — where `x` requires `shared` — returns
`[shared, x, shared]` with `shared` twice. -/
theorem resolve_duplicates_direct_request :
    resolve_jobs 10 ["x", "shared"] sampleConfig = .ok [sharedJob, xJob, sharedJob] ∧
    List.count sharedJob [sharedJob, xJob, sharedJob] = 2 := by decide

/-- C2 counterexample: the claim says a `once=true` job appears as the
job of a `Start` event at most one time across the whole run, and that
with one `once` job and three contexts exactly one `Start` is emitted.
With the two-step once job, the single (trimmed) pass already emits two
`Start` events for it. -/
theorem two_step_once_job_two_starts :
    ¬ (((run_jobs succeedAll [onceJob] [ctxA, ctxB, ctxC] bareConfig).2.1.flatten.countP
        (isStartOf onceJob)) ≤ 1) := by decide

/-- C2 (amended): for a run whose job list contains a given `once=true`
job at most once, all `Start` events for that job fall within a single
context's pass (one per step of the job, not one overall); with a
single once job the context list is trimmed, so at most one pass exists
at all; and in the scenario of one single-step `once=true` job and
three contexts the whole run is exactly one pass — the first
context's — holding exactly one `Start` for the job followed by its
`Result`. -/
theorem once_job_single_pass (pj : PrepareJob) (cfg : Config) (jobs : List Job)
    (ctxs : List Context) (j : Job) (h1 : j.once = true) (h2 : List.count j jobs ≤ 1) :
    ((run_jobs pj jobs ctxs cfg).2.1.countP (fun evs => evs.any (isStartOf j))) ≤ 1 ∧
    (jobs = [j] → (run_jobs pj jobs ctxs cfg).2.1.length ≤ 1) ∧
    (∀ (c1 c2 c3 : Context) (s : Step), ctxs = [c1, c2, c3] → jobs = [j] →
      pj j c1 cfg = [s] →
      (run_jobs pj jobs ctxs cfg).2.1
        = [[Event.start s.cmd j c1, Event.result s.result]]) := by
  refine ⟨loop_countP_le_one h1 _ jobs h2, ?_, ?_⟩
  · intro hj
    subst hj
    have hall : List.all [j] (fun j => j.once) = true := by simp [h1]
    have hrw : (run_jobs pj [j] ctxs cfg).2.1 = (run_jobs_loop pj cfg (ctxs.take 1) [j]).1 := by
      simp [run_jobs, hall]
    rw [hrw]
    calc (run_jobs_loop pj cfg (ctxs.take 1) [j]).1.length
        ≤ (ctxs.take 1).length := loop_length_le _ _
      _ ≤ 1 := by simp [List.length_take]
  · rintro c1 c2 c3 s rfl rfl hs
    have hall : List.all [j] (fun j => j.once) = true := by simp [h1]
    have hevs : run_jobs_on_context pj [j] c1 cfg
        = [Event.start s.cmd j c1, Event.result s.result] := by
      by_cases hsuc : s.result.success
      · simp [run_jobs_on_context, hs, runSteps, hsuc]
      · simp [run_jobs_on_context, hs, runSteps, hsuc]
    have hfin : finished_pass pj [j] c1 cfg = [j] := by
      simp [finished_pass, hevs, startOnce, h1]
    have hrem : removeAll [j] (finished_pass pj [j] c1 cfg) = some [] := by
      simp [hfin, removeAll, removeFirst]
    simp [run_jobs, hall, run_jobs_loop, hrem, hevs]

/-- C2 witness: the amended theorem applied to the single-step once job
`onceSolo` over three contexts — its conclusions instantiate to the
upper bounds and to the exact one-`Start` first-pass event list. -/
theorem once_job_single_pass_witness :
    ((run_jobs succeedAll [onceSolo] [ctxA, ctxB, ctxC] bareConfig).2.1.countP
        (fun evs => evs.any (isStartOf onceSolo))) ≤ 1 ∧
    (run_jobs succeedAll [onceSolo] [ctxA, ctxB, ctxC] bareConfig).2.1.length ≤ 1 ∧
    (run_jobs succeedAll [onceSolo] [ctxA, ctxB, ctxC] bareConfig).2.1
      = [[Event.start "pip install" onceSolo ctxA,
          Event.result ⟨onceSolo, ctxA, true, 0, "", ""⟩]] := by
  have T := once_job_single_pass succeedAll bareConfig [onceSolo] [ctxA, ctxB, ctxC]
    onceSolo rfl (by decide)
  exact ⟨T.1, T.2.1 rfl,
    T.2.2 ctxA ctxB ctxC ⟨"pip install", ⟨onceSolo, ctxA, true, 0, "", ""⟩⟩ rfl rfl
      (by decide)⟩

/-- C3: within a single (job-list, context) pass, a `Result` event with
`success = false` is the last event of the pass: the event at any index
holding a failed `Result` is followed by nothing (its index + 1 is the
length), so no later `Start` — for the current job's remaining steps or
for later jobs — is ever emitted.  The pass is an ordinary list, i.e. a
normal termination rather than an exception. -/
theorem fail_result_ends_pass (pj : PrepareJob) (jobs : List Job) (c : Context)
    (cfg : Config) (i : Nat) (r : Result)
    (h1 : (run_jobs_on_context pj jobs c cfg)[i]? = some (Event.result r))
    (h2 : r.success = false) :
    i + 1 = (run_jobs_on_context pj jobs c cfg).length := by
  rcases rjoc_shape pj jobs c cfg with hff | ⟨l, r', hl, hff⟩
  · exfalso
    rcases List.getElem?_eq_some.mp h1 with ⟨hlt, hget⟩
    have hmem : Event.result r ∈ run_jobs_on_context pj jobs c cfg :=
      hget ▸ List.getElem_mem hlt
    rw [hff r hmem] at h2; cases h2
  · rw [hl] at h1 ⊢
    rcases List.getElem?_eq_some.mp h1 with ⟨hlt, hget⟩
    simp only [List.length_append, List.length_singleton] at hlt ⊢
    rcases Nat.lt_or_ge i l.length with hil | hil
    · exfalso
      have hidx : (l ++ [Event.result r'])[i]? = l[i]? := by
        rw [List.getElem?_append]; simp [hil]
      rw [hidx] at h1
      rcases List.getElem?_eq_some.mp h1 with ⟨hlt', hget'⟩
      have hmem : Event.result r ∈ l := hget' ▸ List.getElem_mem hlt'
      rw [hff r hmem] at h2; cases h2
    · omega

/-- C3 witness: two jobs against one context where the first job's only
step fails — the failed `Result` at index 1 closes the two-event pass,
so `Start(lint)` never appears. -/
theorem fail_result_ends_pass_witness :
    1 + 1 = (run_jobs_on_context failAll [failJob, plainJob] ctxA bareConfig).length :=
  fail_result_ends_pass failAll [failJob, plainJob] ctxA bareConfig 1
    ⟨failJob, ctxA, false, 1, "", "boom"⟩ (by decide) rfl

/-- C4 counterexample: the claim says that after each pass every
started `once` job is removed from the active list and the next
context's pass then runs over the remaining jobs.  With the two-step
once job (recorded once per `Start`), the second `list.remove` raises
`ValueError`, so only one of the two contexts ever gets a pass. -/
theorem removal_error_skips_second_context :
    ¬ ((run_jobs succeedAll [onceJob, plainJob] [ctxA, ctxB] bareConfig).2.1.length = 2) := by
  decide

/-- C4 (amended): after a per-context pass, provided the started `once`
job occurs at most once in the active list and the removal loop
succeeds (each recorded job still present when removed — otherwise the
run aborts with the `ValueError` of `list.remove`), that job — the
recording happens on `Start`, so also a once job whose own step failed
— is absent from the next pass's active list, and the loop continues
with exactly that pruned list; the per-pass recording list is fresh
each iteration. -/
theorem once_started_pruned (pj : PrepareJob) (cfg : Config) (active : List Job)
    (c : Context) (cs : List Context) (j : Job) (active' : List Job)
    (h1 : j ∈ finished_pass pj active c cfg)
    (h2 : List.count j active ≤ 1)
    (h3 : removeAll active (finished_pass pj active c cfg) = some active') :
    j ∉ active' ∧
    run_jobs_loop pj cfg (c :: cs) active =
      (run_jobs_on_context pj active c cfg :: (run_jobs_loop pj cfg cs active').1,
       (run_jobs_loop pj cfg cs active').2) := by
  refine ⟨List.count_eq_zero.mp (removeAll_count_zero h3 h1 h2), ?_⟩
  simp [run_jobs_loop, h3]

/-- C4 witness: a once job whose single step fails is still recorded
(on `Start`) and pruned, so the second context's pass runs without
it. -/
theorem once_started_pruned_witness :
    onceFail ∉ ([] : List Job) ∧
    run_jobs_loop failAll bareConfig [ctxA, ctxB] [onceFail] =
      (run_jobs_on_context failAll [onceFail] ctxA bareConfig ::
        (run_jobs_loop failAll bareConfig [ctxB] []).1,
       (run_jobs_loop failAll bareConfig [ctxB] []).2) :=
  once_started_pruned failAll bareConfig [onceFail] ctxA [ctxB] onceFail [] (by decide)
    (by decide) (by decide)

/-- C5: requesting a name absent from the config makes `resolve_jobs`
raise the unknown-job `ValueError` (the spec's `UnknownJobError`), and
`run` propagates it before any execution: the surfaced event list is
empty and no job ran.  The hypothesis `h3` excludes the fuel marker
standing for non-termination on cyclic graphs, where Python would
recurse without bound instead of raising. -/
theorem unknown_job_no_execution (pj : PrepareJob) (ctxs : List Context) (fuel : Nat)
    (options : Options) (name : String)
    (h1 : name ∈ options.jobs)
    (h2 : options.config.jobs.lookup name = none)
    (h3 : resolve_jobs fuel options.jobs options.config ≠ .error Err.recursionLimit) :
    ∃ m, options.config.jobs.lookup m = none ∧
      run pj ctxs fuel options = (options, [], .error (Err.unknownJob m)) := by
  have hne : options.jobs.isEmpty = false := by
    cases hj : options.jobs with
    | nil => rw [hj] at h1; cases h1
    | cons a l => rfl
  rcases hres : resolve_jobs fuel options.jobs options.config with e | jobs
  · rcases resolveNames_error_shape fuel options.jobs [] e hres with hrl | ⟨m, hm, hlk⟩
    · rw [hrl] at hres; exact absurd hres h3
    · subst hm
      exact ⟨m, hlk, by simp [run, hne, runResolved, hres]⟩
  · exact absurd hres (resolveNames_unknown_not_ok h2 fuel options.jobs [] jobs h1)

/-- C5 witness: requesting the name `"ghost"`, absent from
`sampleConfig`, errors with no event. -/
theorem unknown_job_no_execution_witness :
    ∃ m, options5.config.jobs.lookup m = none ∧
      run succeedAll [ctxA] 10 options5 = (options5, [], .error (Err.unknownJob m)) :=
  unknown_job_no_execution succeedAll [ctxA] 10 options5 "ghost" (by decide) (by decide)
    (by decide)

/-- C6: if every job of the input list has `once = true`, `run_jobs`
trims the context sequence to its first element before anything runs:
the sequence handed to `prepare_contexts` (and iterated by the loop) is
exactly `[c1]`, and at most one context pass happens. -/
theorem all_once_trims_contexts (pj : PrepareJob) (cfg : Config) (jobs : List Job)
    (c1 c2 c3 : Context) (h : jobs.all (fun j => j.once) = true) :
    (run_jobs pj jobs [c1, c2, c3] cfg).1 = [c1] ∧
    (run_jobs pj jobs [c1, c2, c3] cfg).2.1.length ≤ 1 := by
  constructor
  · simp [run_jobs, h]
  · have hrw : (run_jobs pj jobs [c1, c2, c3] cfg).2.1
        = (run_jobs_loop pj cfg [c1] jobs).1 := by
      simp [run_jobs, h]
    rw [hrw]
    exact Nat.le_trans (loop_length_le [c1] jobs) (by simp)

/-- C6 witness: one once job, three contexts. -/
theorem all_once_trims_contexts_witness :
    (run_jobs succeedAll [onceJob] [ctxA, ctxB, ctxC] bareConfig).1 = [ctxA] ∧
    (run_jobs succeedAll [onceJob] [ctxA, ctxB, ctxC] bareConfig).2.1.length ≤ 1 :=
  all_once_trims_contexts succeedAll bareConfig [onceJob] ctxA ctxB ctxC (by decide)

/-- C7: resolving `["x", "y"]`, where both require `"shared"`, yields
exactly `[shared, x, y]` — `shared` once, before both dependents. -/
theorem resolve_shared_before_dependents :
    resolve_jobs 10 ["x", "y"] sampleConfig = .ok [sharedJob, xJob, yJob] := by decide

/-- C8: resolution is deterministic and repeatable.  `resolve_jobs` in
the source reads `config` without ever assigning into it, so the
embedding is a pure function of `(fuel, names, config)`: two calls on
the same arguments are the same term, and the config value is untouched
by construction. -/
theorem resolve_jobs_repeatable (fuel : Nat) (names : List String) (config : Config) :
    resolve_jobs fuel names config = resolve_jobs fuel names config := rfl

/-- C9: with no requested job names, `run` behaves exactly as if the
config's declared defaults had been requested; and when the config
declares no defaults either, it returns the empty result list with no
event and no error. -/
theorem default_fallback (pj : PrepareJob) (ctxs : List Context) (fuel : Nat)
    (options : Options) (h : options.jobs = []) :
    run pj ctxs fuel options
      = run pj ctxs fuel { options with jobs := options.config.defaults } ∧
    (options.config.defaults = [] →
      run pj ctxs fuel options = (options, [], .ok [])) := by
  rcases hd : options.config.defaults with _ | ⟨d, ds⟩
  · have hopt : ({ options with jobs := [] } : Options) = options := by
      cases options with
      | mk cfg py js => simp_all
    rw [hopt]
    exact ⟨rfl, fun _ => by simp [run, h, hd]⟩
  · constructor
    · simp [run, h, hd]
    · intro hc; cases hc

/-- C9 witness: no requested names against the config whose default is
`["y"]`. -/
theorem default_fallback_witness :
    run succeedAll [ctxA] 10 options9
      = run succeedAll [ctxA] 10 { options9 with jobs := options9.config.defaults } ∧
    (options9.config.defaults = [] →
      run succeedAll [ctxA] 10 options9 = (options9, [], .ok [])) :=
  default_fallback succeedAll [ctxA] 10 options9 rfl

/-- C10: when called with an empty requested-name list and non-empty
defaults, `run` leaves behind an `Options` value whose `jobs` field has
been extended in place with the defaults — the caller's `Options` is
not unchanged. -/
theorem run_mutates_options (pj : PrepareJob) (ctxs : List Context) (fuel : Nat)
    (options : Options) (h1 : options.jobs = [])
    (h2 : options.config.defaults ≠ []) :
    (run pj ctxs fuel options).1.jobs = options.jobs ++ options.config.defaults ∧
    (run pj ctxs fuel options).1 ≠ options := by
  have hde : options.config.defaults.isEmpty = false := by
    cases hd : options.config.defaults with
    | nil => exact absurd hd h2
    | cons a l => rfl
  have hrun : run pj ctxs fuel options
      = runResolved pj ctxs fuel
          { options with jobs := options.jobs ++ options.config.defaults } := by
    simp [run, h1, hde]
  rw [hrun, runResolved_fst]
  refine ⟨rfl, ?_⟩
  intro heq
  have hjobs : options.jobs ++ options.config.defaults = options.jobs :=
    congrArg Options.jobs heq
  rw [h1] at hjobs
  simp at hjobs
  exact h2 hjobs

/-- C10 witness: empty request against the config whose default is
`["y"]`. -/
theorem run_mutates_options_witness :
    (run succeedAll [ctxA] 10 options9).1.jobs
      = options9.jobs ++ options9.config.defaults ∧
    (run succeedAll [ctxA] 10 options9).1 ≠ options9 :=
  run_mutates_options succeedAll [ctxA] 10 options9 rfl (by decide)

end Thx
